import Mathlib

/-!
Verification of the sncode execution core against its specification.

This file shallowly embeds the algorithmic parts of the sncode sources:

* path sandboxing, file editing, and content search from
  src/main/project-tools.ts;
* the tool dispatcher, step-result ordering, the sub-agent scheduler,
  the sub-agent tool catalogues and the stream-usage accounting from
  src/main/agent.ts;
* the JSON-RPC client state from src/main/mcp.ts.

Filesystem and network effects are abstracted: pure functions of the
source act on explicit content values; effectful internals of a tool body
appear as abstract fallible operations.  Paths are modelled as POSIX
strings (the shapes relevant to the claims; Windows path syntax is out of
scope).  All definitions are executable.
-/

namespace SnCode

/- ════════ Definitions ════════ -/

/- ── Path sandbox: resolveInsideProject (project-tools.ts lines 47-54) ── -/

/-- Split a character list at every occurrence of the separator
character; acc holds the current piece reversed. -/
def splitCharAux (c : Char) : List Char → List Char → List (List Char)
  | acc, [] => [acc.reverse]
  | acc, a :: rest =>
    if a = c then acc.reverse :: splitCharAux c [] rest
    else splitCharAux c (a :: acc) rest

/-- Slash-separated segments of a POSIX path. -/
def pathSegs (p : List Char) : List (List Char) := splitCharAux '/' [] p

/-- One step of POSIX path-segment normalization over an absolute path:
empty and dot segments vanish, a dot-dot segment pops the last kept
segment (a no-op at the filesystem root), anything else is kept. -/
def normStep (acc : List (List Char)) (seg : List Char) : List (List Char) :=
  if seg = [] ∨ seg = ['.'] then acc
  else if seg = ['.', '.'] then acc.dropLast
  else acc ++ [seg]

/-- Segment list of the normalized form of an absolute POSIX path. -/
def normAbs (p : List Char) : List (List Char) :=
  (pathSegs p).foldl normStep []

/-- Render a normalized segment list back to an absolute POSIX path. -/
def renderAbs (segs : List (List Char)) : List Char :=
  '/' :: List.intercalate ['/'] segs

/-- Model of node path.resolve(root, target) for an absolute root: an
absolute target is normalized on its own, otherwise target is joined to
root and the joined path is normalized. -/
def posixResolve (root target : List Char) : List Char :=
  match target with
  | '/' :: _ => renderAbs (normAbs target)
  | _ => renderAbs (normAbs (root ++ '/' :: target))

/-- Model of resolveInsideProject: resolve the (possibly empty, hence
defaulted to dot) target against the project root and accept the result
exactly when the resolved string starts with the normalized root, as the
source's startsWith check does.  Returns the resolved path or the
path-escape error. -/
def resolveInsideProject (projectRoot targetPath : String) : Except String String :=
  let resolved := posixResolve projectRoot.data (if targetPath = "" then ['.'] else targetPath.data)
  let normalizedRoot := posixResolve projectRoot.data ['.']
  if normalizedRoot.isPrefixOf resolved then Except.ok ⟨resolved⟩
  else Except.error "Path escapes project root"

/-- The specification's notion of a path lying under the project root:
the root itself, or a path that continues the root past a separator. -/
def isUnder (root p : String) : Bool :=
  p.data == root.data || (root.data ++ ['/']).isPrefixOf p.data

/- ── edit_file: editFile (project-tools.ts lines 223-273) ── -/

/-- Model of JS String.prototype.includes: does pat occur as a contiguous
substring?  The empty pattern occurs in every string, as in JS. -/
def containsSub (pat : List Char) : List Char → Bool
  | [] => pat.isEmpty
  | a :: rest => pat.isPrefixOf (a :: rest) || containsSub pat rest

/-- Non-overlapping leftmost occurrence count of pat, mirroring the
source's indexOf loop (idx advances by the needle length after each hit,
by one position otherwise).  The fuel argument bounds the iterations;
callers pass the content length, which suffices for a nonempty needle.
For the empty needle the source loop does not terminate, so callers
guard against it. -/
def countOccAux (pat : List Char) : Nat → List Char → Nat
  | 0, _ => 0
  | _ + 1, [] => 0
  | fuel + 1, a :: rest =>
    if pat.isPrefixOf (a :: rest) then 1 + countOccAux pat fuel ((a :: rest).drop pat.length)
    else countOccAux pat fuel rest

/-- Occurrence count of pat in content, fuelled by the content length. -/
def countOcc (content pat : List Char) : Nat := countOccAux pat content.length content

/-- Model of JS String.prototype.split for a nonempty separator, in the
same fuelled style as countOccAux; acc holds the current piece reversed. -/
def splitOnAux (pat : List Char) : Nat → List Char → List Char → List (List Char)
  | 0, acc, l => [acc.reverse ++ l]
  | _ + 1, acc, [] => [acc.reverse]
  | fuel + 1, acc, a :: rest =>
    if pat.isPrefixOf (a :: rest) then acc.reverse :: splitOnAux pat fuel [] ((a :: rest).drop pat.length)
    else splitOnAux pat fuel (a :: acc) rest

/-- Pieces of content between the non-overlapping occurrences of pat. -/
def splitOnL (content pat : List Char) : List (List Char) :=
  splitOnAux pat content.length [] content

/-- Model of the GetSubstitution processing that JS String.prototype.replace
applies to a string replacement: a dollar followed by a second dollar
yields one dollar, followed by an ampersand yields the matched text,
followed by a grave accent (character 96) the text before the match,
followed by an apostrophe (character 39) the text after it; any other
dollar — including the numbered and angle-bracket forms, which refer to
capture groups that a string search pattern never has — is passed
through literally, as are all ordinary characters. -/
def getSubstitution (matched pre suf : List Char) : List Char → List Char
  | [] => []
  | ['$'] => ['$']
  | '$' :: c :: rest =>
    if c = '$' then '$' :: getSubstitution matched pre suf rest
    else if c = '&' then matched ++ getSubstitution matched pre suf rest
    else if c = Char.ofNat 96 then pre ++ getSubstitution matched pre suf rest
    else if c = Char.ofNat 39 then suf ++ getSubstitution matched pre suf rest
    else '$' :: getSubstitution matched pre suf (c :: rest)
  | c :: rest => c :: getSubstitution matched pre suf rest

/-- Model of JS String.prototype.replace with a string pattern: scan for
the leftmost occurrence of pat, splice in the replacement text processed
through getSubstitution — the matched text is pat itself, the before and
after context are the scanned prefix and the remaining suffix — and
return the content unchanged when pat does not occur.  The accumulator
holds the scanned prefix reversed; the fuel bounds the scan and callers
pass the content length. -/
def replaceFirstAux (pat repl : List Char) : Nat → List Char → List Char → List Char
  | _, acc, [] => acc.reverse
  | 0, acc, l => acc.reverse ++ l
  | fuel + 1, acc, a :: rest =>
    if pat.isPrefixOf (a :: rest) then
      acc.reverse
        ++ getSubstitution pat acc.reverse ((a :: rest).drop pat.length) repl
        ++ (a :: rest).drop pat.length
    else replaceFirstAux pat repl fuel (a :: acc) rest

/-- Leftmost-occurrence replacement with JS dollar-substitution
semantics, fuelled by the content length. -/
def replaceFirstL (content pat repl : List Char) : List Char :=
  replaceFirstAux pat repl content.length [] content

/-- Successful outcome of editFile: the updated file content and the
replacement count the success message reports. -/
structure EditOk where
  updated : String
  occurrences : Nat
  deriving Repr, DecidableEq

/-- The failure modes editFile throws: identical old/new strings, an old
string absent from the file, or an ambiguous old string with its
occurrence count. -/
inductive EditError where
  | mustDiffer
  | notFound
  | ambiguous (count : Nat)
  deriving Repr, DecidableEq

/-- Model of editFile on the file's content (path resolution and the
read/write of the file itself are filesystem effects outside the model):
reject identical old/new, reject an absent old string, count occurrences
when replaceAll is unset and reject more than one, otherwise substitute —
split/join over all occurrences under replaceAll, which splices the new
text literally, or JS replace of the leftmost occurrence otherwise,
which processes dollar patterns in the new text — and report the
replacement count exactly as the source computes it. -/
def editFile (content oldString newString : String) (replaceAll : Bool) : Except EditError EditOk :=
  if oldString = newString then Except.error EditError.mustDiffer
  else if ¬ containsSub oldString.data content.data then Except.error EditError.notFound
  else if ¬ replaceAll ∧ 1 < countOcc content.data oldString.data then
    Except.error (EditError.ambiguous (countOcc content.data oldString.data))
  else
    let updated :=
      if replaceAll then List.intercalate newString.data (splitOnL content.data oldString.data)
      else replaceFirstL content.data oldString.data newString.data
    let occurrences :=
      if replaceAll then (splitOnL content.data oldString.data).length - 1
      else 1
    Except.ok ⟨⟨updated⟩, occurrences⟩

/- ── grep: grepFiles (project-tools.ts lines 350-425) ── -/

/-- Byte ceiling above which read_file rejects and grep skips a file. -/
def MAX_FILE_BYTES : Nat := 300000

/-- Global cap on the number of grep matches. -/
def MAX_GREP_MATCHES : Nat := 200

/-- Cap on the length of a reported match line. -/
def MAX_GREP_LINE_LENGTH : Nat := 500

/-- A file reached by the walk: its display path, its stat size in
bytes, and its text content. -/
structure FsFile where
  name : String
  size : Nat
  content : String
  deriving Repr, DecidableEq

/-- One grep match: display path, one-based line number, reported line. -/
structure GrepMatchRec where
  file : String
  line : Nat
  content : String
  deriving Repr, DecidableEq

/-- Result of grepFiles: the matches (named matches in the source, a
reserved word here), the number of files with at least one match, and
the truncation flag. -/
structure GrepResult where
  foundMatches : List GrepMatchRec
  fileCount : Nat
  truncated : Bool
  deriving Repr, DecidableEq

/-- The lines of a file content, split at every newline as JS split
does. -/
def fileLines (content : String) : List String :=
  (splitCharAux '\n' [] content.data).map (fun l => ⟨l⟩)

/-- A reported match line, truncated with an ellipsis marker when longer
than the line-length cap. -/
def truncLine (l : String) : String :=
  if MAX_GREP_LINE_LENGTH < l.data.length then ⟨l.data.take MAX_GREP_LINE_LENGTH ++ "...".data⟩
  else l

/-- The source's binary heuristic: a null byte within the first eight
kilobytes of the content. -/
def looksBinary (content : String) : Bool :=
  (content.data.take 8192).contains (Char.ofNat 0)

/-- Line loop of grepFiles over one file: idx is the zero-based line
index and cnt the number of matches already collected in the whole run;
after pushing the match that reaches the global cap the source breaks
out of the loop.  Returns this file's matches and whether any line
matched (the source's hasMatch flag, which drives fileCount). -/
def grepFileLines (matchLine : String → Bool) (fname : String) :
    List String → Nat → Nat → List GrepMatchRec × Bool
  | [], _, _ => ([], false)
  | l :: rest, idx, cnt =>
    if matchLine l then
      if MAX_GREP_MATCHES ≤ cnt + 1 then ([⟨fname, idx + 1, truncLine l⟩], true)
      else
        let res := grepFileLines matchLine fname rest (idx + 1) (cnt + 1)
        (⟨fname, idx + 1, truncLine l⟩ :: res.1, true)
    else grepFileLines matchLine fname rest (idx + 1) cnt

/-- File loop of grepFiles: break once the match cap is reached, skip
files above the byte ceiling, skip binary-looking files, otherwise scan
the file's lines and recurse with the enlarged match count.  Returns the
collected matches and the matching-file count.  The regex test itself is
the host's regex engine, abstracted as the matchLine predicate. -/
def grepFilesAux (matchLine : String → Bool) : List FsFile → Nat → List GrepMatchRec × Nat
  | [], _ => ([], 0)
  | f :: rest, cnt =>
    if MAX_GREP_MATCHES ≤ cnt then ([], 0)
    else if MAX_FILE_BYTES < f.size then grepFilesAux matchLine rest cnt
    else if looksBinary f.content then grepFilesAux matchLine rest cnt
    else
      let res := grepFileLines matchLine f.name (fileLines f.content) 0 cnt
      let tail := grepFilesAux matchLine rest (cnt + res.1.length)
      (res.1 ++ tail.1, (if res.2 then 1 else 0) + tail.2)

/-- Model of grepFiles over the walked file list (the walk itself and
the include filter run before this loop and are abstracted as the input
list): matches, matching-file count, and the truncation flag set exactly
when the match list has reached the cap. -/
def grepFiles (files : List FsFile) (matchLine : String → Bool) : GrepResult :=
  let res := grepFilesAux matchLine files 0
  ⟨res.1, res.2, decide (MAX_GREP_MATCHES ≤ res.1.length)⟩

/- ── Tool dispatcher: executeTool (agent.ts lines 586-675) ── -/

/-- The effectful bodies of the tool branches of executeTool, abstracted:
each operation takes the (already stringified) arguments and either
returns the textual result the branch would produce or throws an error
message. -/
structure ToolOps (A : Type) where
  listFilesOp : A → Except String String
  readFileOp : A → Except String String
  writeFileOp : A → Except String String
  editFileOp : A → Except String String
  globOp : A → Except String String
  grepOp : A → Except String String
  runCommandOp : A → Except String String
  loadSkillOp : A → Except String String
  spawnTaskOp : A → Except String String

/-- The try-block of executeTool: the initial cancellation check, then
the name dispatch in source order, ending in the unknown-tool result. -/
def dispatchTool {A : Type} (ops : ToolOps A) (aborted : Bool) (name : String) (args : A) :
    Except String String :=
  if aborted then Except.error "Run cancelled"
  else if name = "list_files" then ops.listFilesOp args
  else if name = "read_file" then ops.readFileOp args
  else if name = "write_file" then ops.writeFileOp args
  else if name = "edit_file" then ops.editFileOp args
  else if name = "glob" then ops.globOp args
  else if name = "grep" then ops.grepOp args
  else if name = "run_command" then ops.runCommandOp args
  else if name = "load_skill" then ops.loadSkillOp args
  else if name = "spawn_task" then ops.spawnTaskOp args
  else Except.ok ("Unknown tool: " ++ name)

/-- The catch boundary of executeTool: a thrown cancellation message is
re-raised unmodified, every other thrown message becomes a normal
textual tool result. -/
def executeTool {A : Type} (ops : ToolOps A) (aborted : Bool) (name : String) (args : A) :
    Except String String :=
  match dispatchTool ops aborted name args with
  | Except.ok r => Except.ok r
  | Except.error msg =>
    if msg = "Run cancelled" then Except.error msg
    else Except.ok ("Tool error: " ++ msg)

/- ── Stream usage accounting (agent.ts lines 853-892 and 1051-1057) ── -/

/-- Usage-relevant shape of an Anthropic stream event: a message-start
report with both counters, a message-delta report with the output
counter, or any other event. -/
inductive AnthStreamEvent where
  | messageStart (inputTokens outputTokens : Nat)
  | messageDelta (outputTokens : Nat)
  | otherEvent
  deriving Repr, DecidableEq

/-- Token counters accumulated for one step. -/
structure StepUsage where
  inputTokens : Nat
  outputTokens : Nat
  deriving Repr, DecidableEq

/-- Per-event update of the Anthropic loop's step counters: a
message-start report stores both counters; a message-delta report
overwrites the output counter when the reported value is nonzero (the
source tests JS truthiness); other events leave the counters alone. -/
def applyAnthUsage (s : StepUsage) : AnthStreamEvent → StepUsage
  | AnthStreamEvent.messageStart i o => ⟨i, o⟩
  | AnthStreamEvent.messageDelta o => if o ≠ 0 then ⟨s.inputTokens, o⟩ else s
  | AnthStreamEvent.otherEvent => s

/-- Step counters after an Anthropic event stream, started at zero. -/
def anthStepUsage (events : List AnthStreamEvent) : StepUsage :=
  events.foldl applyAnthUsage ⟨0, 0⟩

/-- Per-chunk update of the OpenAI loop's step counters: a chunk
carrying usage overwrites both counters, any other chunk is ignored. -/
def applyOpenAIUsage (s : StepUsage) : Option (Nat × Nat) → StepUsage
  | some u => ⟨u.1, u.2⟩
  | none => s

/-- Step counters after an OpenAI chunk stream, started at zero. -/
def openAIStepUsage (usages : List (Option (Nat × Nat))) : StepUsage :=
  usages.foldl applyOpenAIUsage ⟨0, 0⟩

/- ── RPC client state: McpClient (mcp.ts lines 65-237) ── -/

/-- Observable connection state of one MCP client: the correlation ids
of the outstanding requests in the pending map, the connected flag, and
whether the subprocess handle is still alive. -/
structure McpClientState where
  pendingIds : List String
  connected : Bool
  processAlive : Bool
  deriving Repr, DecidableEq

/-- How a pending request was completed. -/
inductive RpcOutcome where
  | timedOut
  | resolved
  | rpcError
  | processExit
  deriving Repr, DecidableEq

/-- sendRequest registers the fresh correlation id in the pending map
before writing the request line. -/
def sendRequest (s : McpClientState) (rid : String) : McpClientState :=
  ⟨s.pendingIds ++ [rid], s.connected, s.processAlive⟩

/-- The thirty-second timeout callback armed by sendRequest: if the id
is still pending it is removed and that request alone fails with the
timeout outcome; the connection and subprocess are untouched. -/
def onRequestTimeout (s : McpClientState) (rid : String) :
    McpClientState × List (String × RpcOutcome) :=
  if s.pendingIds.contains rid then
    (⟨s.pendingIds.erase rid, s.connected, s.processAlive⟩, [(rid, RpcOutcome.timedOut)])
  else (s, [])

/-- processBuffer handling of one complete, well-formed response line: a
pending id is removed and resolved or rejected according to the error
field; a line whose id matches nothing is discarded. -/
def onResponseLine (s : McpClientState) (rid : String) (isErrResp : Bool) :
    McpClientState × List (String × RpcOutcome) :=
  if s.pendingIds.contains rid then
    (⟨s.pendingIds.erase rid, s.connected, s.processAlive⟩,
     [(rid, if isErrResp then RpcOutcome.rpcError else RpcOutcome.resolved)])
  else (s, [])

/-- The close handler: the process is gone, every pending request is
rejected with the process-exit outcome and the table cleared. -/
def onProcessClose (s : McpClientState) : McpClientState × List (String × RpcOutcome) :=
  (⟨[], false, false⟩, s.pendingIds.map (fun i => (i, RpcOutcome.processExit)))

/- ── Sub-agent tool catalogues (agent.ts lines 146-268, 272-393, 398, 474-476, 531-535) ── -/

/-- Names of the Anthropic tool catalogue, in source order: the seven
base tools, load_skill only when skills are available, then spawn_task
appended unconditionally. -/
def anthropicToolNames (hasSkills : Bool) : List String :=
  (["list_files", "read_file", "write_file", "edit_file", "glob", "grep", "run_command"]
      ++ (if hasSkills then ["load_skill"] else []))
    ++ ["spawn_task"]

/-- Names of the OpenAI tool catalogue, built in the same order by
buildOpenAITools. -/
def openAIToolNames (hasSkills : Bool) : List String :=
  (["list_files", "read_file", "write_file", "edit_file", "glob", "grep", "run_command"]
      ++ (if hasSkills then ["load_skill"] else []))
    ++ ["spawn_task"]

/-- EXPLORE_TOOLS: the read-only tool names offered to explore
sub-agents. -/
def EXPLORE_TOOLS : List String := ["list_files", "read_file", "glob", "grep"]

/-- Tool catalogue offered to a sub-agent: explore keeps only the
EXPLORE_TOOLS names, general drops spawn_task and load_skill, exactly as
the two filters in runSubAgentAnthropic and runSubAgentOpenAI do (the
sub-agent builders are called without available skills, so hasSkills is
false there). -/
def subAgentCatalogue (allNames : List String) (isExplore : Bool) : List String :=
  if isExplore then allNames.filter (fun n => EXPLORE_TOOLS.contains n)
  else allNames.filter (fun n => !(n == "spawn_task") && !(n == "load_skill"))

/-- The tool names a sub-agent run executes: each step of the loop
executes exactly the tool calls the provider returned for it, in
order. -/
def executedToolNames (steps : List (List String)) : List String := steps.flatten

/- ── Step tool-result ordering (agent.ts lines 922-980 and 1114-1163) ── -/

/-- A tool call issued by the model in one step: correlation id and tool
name (the arguments play no role in result ordering). -/
structure ToolCallRec where
  id : String
  name : String
  deriving Repr, DecidableEq

/-- Consecutive batches of at most k items: the slice loop of the spawn
scheduler.  The fuel bounds the iterations; callers pass the list
length, which suffices for a positive k. -/
def chunksAux {α : Type} (k : Nat) : Nat → List α → List (List α)
  | _, [] => []
  | 0, l => [l]
  | fuel + 1, a :: t => (a :: t).take k :: chunksAux k fuel ((a :: t).drop k)

/-- The batches of at most k items the scheduler slices a list into. -/
def chunksOf {α : Type} (k : Nat) (l : List α) : List (List α) := chunksAux k l.length l

/-- resultsByIndex write phase of the Anthropic loop: every completed
call stores its pair of tool-use id and result at its issue index in an
array pre-allocated to the call count; the fold order is the completion
order. -/
def writeResults (calls : List ToolCallRec) (exec : ToolCallRec → String)
    (completionOrder : List (Nat × ToolCallRec)) : List (Option (String × String)) :=
  completionOrder.foldl (fun acc ic => acc.set ic.1 (some (ic.2.id, exec ic.2)))
    (List.replicate calls.length none)

/-- Read-out phase of the Anthropic loop: the tool_result blocks are
assembled by walking the result array in issue-index order. -/
def assembleResults (calls : List ToolCallRec) (exec : ToolCallRec → String)
    (completionOrder : List (Nat × ToolCallRec)) : List (String × String) :=
  (List.range calls.length).map
    (fun i => ((writeResults calls exec completionOrder)[i]?.getD none).getD ("", ""))

/-- toolResultsMap write phase of the OpenAI loop: completed calls are
inserted into a map keyed by call id; a later insert shadows an earlier
one, as JS Map.set does. -/
def writeResultsById (exec : ToolCallRec → String) (completionOrder : List ToolCallRec) :
    List (String × String) :=
  completionOrder.foldl (fun acc c => (c.id, exec c) :: acc) []

/-- Read-out phase of the OpenAI loop: one tool message per issued call
in issue order, its id looked up in the map, defaulting to the empty
string. -/
def assembleResultsById (calls : List ToolCallRec) (exec : ToolCallRec → String)
    (completionOrder : List ToolCallRec) : List (String × String) :=
  calls.map (fun c => (c.id, ((writeResultsById exec completionOrder).lookup c.id).getD ""))

/-- The completion order the source's schedule produces: the non-spawn
calls strictly in issue order, then the spawn_task calls in batches of
at most k (the interleaving inside a batch only permutes entries of this
list, so the permutation quantification of the ordering theorem covers
it). -/
def partitionOrder (k : Nat) (calls : List ToolCallRec) : List (Nat × ToolCallRec) :=
  calls.enum.filter (fun ic => !(ic.2.name == "spawn_task"))
    ++ (chunksOf k (calls.enum.filter (fun ic => ic.2.name == "spawn_task"))).flatten

/- ── Sub-agent scheduler traces (agent.ts lines 948-973 and 1136-1158) ── -/

/-- Observable scheduler events for the delegation calls of one step:
the pending marker emitted by onToolStart, and the start and settlement
of a task's execution. -/
inductive SchedEvent where
  | pendingMark (i : Nat)
  | taskStart (i : Nat)
  | taskEnd (i : Nat)
  deriving Repr, DecidableEq

/-- Is this event a pending marker? -/
def isPendingMark : SchedEvent → Bool
  | SchedEvent.pendingMark _ => true
  | _ => false

/-- Is this event the start of a task's execution? -/
def isTaskStart : SchedEvent → Bool
  | SchedEvent.taskStart _ => true
  | _ => false

/-- Is this event the settlement of a task? -/
def isTaskEnd : SchedEvent → Bool
  | SchedEvent.taskEnd _ => true
  | _ => false

/-- The effective concurrency limit: maxConcurrentTasks, with the JS
or-default of three when the setting is absent (zero). -/
def effectiveConcurrency (maxConcurrentTasks : Nat) : Nat :=
  if maxConcurrentTasks = 0 then 3 else maxConcurrentTasks

/-- A well-formed execution trace of one batch b: exactly one start and
one end event per task of the batch, no pending markers, and in every
prefix no more ends than starts (a task settles only after it began). -/
def WFBatchTrace (b : List Nat) (t : List SchedEvent) : Prop :=
  t.countP isTaskStart = b.length ∧
  t.countP isTaskEnd = b.length ∧
  (∀ e ∈ t, isPendingMark e = false) ∧
  ∀ j ∈ List.range (t.length + 1), (t.take j).countP isTaskEnd ≤ (t.take j).countP isTaskStart

instance (b : List Nat) (t : List SchedEvent) : Decidable (WFBatchTrace b t) := by
  unfold WFBatchTrace
  infer_instance

/-- Observable trace of the spawn_task scheduler: one pending marker per
request, all emitted up front, followed by the batch traces in batch
order — the source awaits the Promise.all of a batch before slicing the
next, so batch traces never interleave across batches, while the trace
inside one batch is an arbitrary well-formed interleaving. -/
def schedTrace (k : Nat) (tasks : List Nat) (batchTrace : List Nat → List SchedEvent) :
    List SchedEvent :=
  tasks.map SchedEvent.pendingMark ++ ((chunksOf k tasks).map batchTrace).flatten

end SnCode

/- ════════ Theorems ════════ -/

namespace SnCode

/- ── Helper lemmas about substring occurrence ── -/

theorem containsSub_iff_occurs (pat : List Char) :
    ∀ l : List Char, containsSub pat l = true ↔ pat <:+: l := by
  intro l
  induction l with
  | nil =>
    simp only [containsSub, List.isEmpty_iff, List.infix_nil]
  | cons a rest ih =>
    simp only [containsSub, Bool.or_eq_true, List.isPrefixOf_iff_prefix, ih,
      List.infix_cons_iff]

theorem countOccAux_pos_of_infix (pat : List Char) (hp : pat ≠ []) :
    ∀ l : List Char, pat <:+: l → 0 < countOccAux pat l.length l := by
  intro l
  induction l with
  | nil => intro h; exact absurd (List.infix_nil.mp h) hp
  | cons a rest ih =>
    intro h
    by_cases hpre : pat.isPrefixOf (a :: rest)
    · simp [countOccAux, hpre]
    · rcases List.infix_cons_iff.mp h with hcase | hcase
      · exact absurd (List.isPrefixOf_iff_prefix.mpr hcase) hpre
      · simpa [countOccAux, hpre] using ih hcase

theorem infix_of_countOccAux_pos (pat : List Char) :
    ∀ (fuel : Nat) (l : List Char), 0 < countOccAux pat fuel l → pat <:+: l := by
  intro fuel
  induction fuel with
  | zero => intro l h; simp [countOccAux] at h
  | succ n ih =>
    intro l h
    cases l with
    | nil => simp [countOccAux] at h
    | cons a rest =>
      by_cases hpre : pat.isPrefixOf (a :: rest)
      · exact (List.isPrefixOf_iff_prefix.mp hpre).isInfix
      · simp only [countOccAux, hpre, if_false] at h
        exact List.infix_cons (ih rest h)

theorem countOcc_pos_iff_occurs (content pat : List Char) (hp : pat ≠ []) :
    0 < countOcc content pat ↔ pat <:+: content :=
  ⟨infix_of_countOccAux_pos pat content.length content,
   countOccAux_pos_of_infix pat hp content⟩

theorem countOcc_eq_zero_iff_not_contains (content pat : List Char) (hp : pat ≠ []) :
    countOcc content pat = 0 ↔ containsSub pat content = false := by
  rw [← Bool.not_eq_true, ← Nat.le_zero, ← Nat.not_lt]
  exact not_congr ((countOcc_pos_iff_occurs content pat hp).trans
    (containsSub_iff_occurs pat content).symm)

theorem splitOnAux_length (pat : List Char) :
    ∀ (fuel : Nat) (l acc : List Char),
      (splitOnAux pat fuel acc l).length = countOccAux pat fuel l + 1 := by
  intro fuel
  induction fuel with
  | zero => intro l acc; simp [splitOnAux, countOccAux]
  | succ n ih =>
    intro l acc
    cases l with
    | nil => simp [splitOnAux, countOccAux]
    | cons a rest =>
      by_cases hpre : pat.isPrefixOf (a :: rest)
      · simp [splitOnAux, countOccAux, hpre, ih, Nat.add_comm]
      · simp [splitOnAux, countOccAux, hpre, ih]

theorem splitOnL_length (content pat : List Char) :
    (splitOnL content pat).length = countOcc content pat + 1 :=
  splitOnAux_length pat content.length content []

/- ── Helper lemmas about the editFile branches ── -/

theorem replaceFirstL_dollar_semantics :
    replaceFirstL "b".data "b".data "$&".data = "b".data ∧
    replaceFirstL "b".data "b".data "$$".data = "$".data ∧
    replaceFirstL "b".data "b".data "$1".data = "$1".data ∧
    replaceFirstL "XbY".data "b".data
        ('$' :: Char.ofNat 96 :: '$' :: '&' :: '$' :: Char.ofNat 39 :: [])
      = "XXbYY".data := by
  refine ⟨by decide, by decide, by decide, by decide⟩

theorem editFile_eq_notFound (content oldString newString : String) (replaceAll : Bool)
    (hne : oldString ≠ newString) (habs : containsSub oldString.data content.data = false) :
    editFile content oldString newString replaceAll = Except.error EditError.notFound := by
  simp [editFile, hne, habs]

theorem editFile_eq_ambiguous (content oldString newString : String)
    (hne : oldString ≠ newString) (hnz : oldString ≠ "")
    (hmany : 1 < countOcc content.data oldString.data) :
    editFile content oldString newString false
      = Except.error (EditError.ambiguous (countOcc content.data oldString.data)) := by
  have hp : oldString.data ≠ [] := fun h => hnz (by
    have := congrArg String.mk h
    simpa using this)
  have hin : containsSub oldString.data content.data = true := by
    rw [containsSub_iff_occurs]
    exact (countOcc_pos_iff_occurs content.data oldString.data hp).mp (by omega)
  simp [editFile, hne, hin, hmany]

theorem editFile_eq_single (content oldString newString : String)
    (hne : oldString ≠ newString) (hnz : oldString ≠ "")
    (hone : countOcc content.data oldString.data = 1) :
    editFile content oldString newString false
      = Except.ok ⟨⟨replaceFirstL content.data oldString.data newString.data⟩, 1⟩ := by
  have hp : oldString.data ≠ [] := fun h => hnz (by
    have := congrArg String.mk h
    simpa using this)
  have hin : containsSub oldString.data content.data = true := by
    rw [containsSub_iff_occurs]
    exact (countOcc_pos_iff_occurs content.data oldString.data hp).mp (by omega)
  simp [editFile, hne, hin, hone]

theorem editFile_eq_replaceAll (content oldString newString : String)
    (hne : oldString ≠ newString) (hnz : oldString ≠ "")
    (hpos : 0 < countOcc content.data oldString.data) :
    editFile content oldString newString true
      = Except.ok ⟨⟨List.intercalate newString.data (splitOnL content.data oldString.data)⟩,
                   countOcc content.data oldString.data⟩ := by
  have hp : oldString.data ≠ [] := fun h => hnz (by
    have := congrArg String.mk h
    simpa using this)
  have hin : containsSub oldString.data content.data = true := by
    rw [containsSub_iff_occurs]
    exact (countOcc_pos_iff_occurs content.data oldString.data hp).mp hpos
  simp [editFile, hne, hin, splitOnL_length]

/- ── C1 ── -/

/-- C1 (code-bug record): with project root /proj the traversal path
dot-dot slash proj2 resolves to /proj2, which is not under the root, yet
resolveInsideProject accepts it, because /proj2 merely continues the
string /proj without a separator; a traversal whose resolution does not
share the root as a string prefix is still rejected with the path-escape
error before any filesystem access. -/
theorem resolveInsideProject_prefix_bug :
    resolveInsideProject "/proj" "../proj2" = Except.ok "/proj2" ∧
    isUnder "/proj" "/proj2" = false ∧
    resolveInsideProject "/proj" "../etc/passwd" = Except.error "Path escapes project root" := by
  refine ⟨rfl, by decide, rfl⟩

/- ── C2 ── -/

/-- C2 counterexample: with identical old and new strings the source
throws its must-differ validation error up front, so a zero-occurrence
input does not produce the not-found failure the claim promises for
every old/new pair. -/
theorem editFile_claimC2_cex :
    countOcc "".data "x".data = 0 ∧
    editFile "" "x" "x" false = Except.error EditError.mustDiffer ∧
    editFile "" "x" "x" false ≠ Except.error EditError.notFound := by
  refine ⟨rfl, rfl, ?_⟩
  have h : editFile "" "x" "x" false = Except.error EditError.mustDiffer := rfl
  rw [h]
  simp

/-- C2 (amended): for a nonempty old string different from the new
string, editFile fails not-found on zero occurrences, fails ambiguous —
reporting the occurrence count — on more than one occurrence without
replaceAll, performs the single substitution reporting one replacement on
exactly one occurrence, and under replaceAll substitutes every occurrence
reporting the full occurrence count. -/
theorem editFile_contract (content oldString newString : String) (replaceAll : Bool)
    (hne : oldString ≠ newString) (hnz : oldString ≠ "") :
    (countOcc content.data oldString.data = 0 →
       editFile content oldString newString replaceAll = Except.error EditError.notFound) ∧
    (1 < countOcc content.data oldString.data →
       editFile content oldString newString false
         = Except.error (EditError.ambiguous (countOcc content.data oldString.data))) ∧
    (countOcc content.data oldString.data = 1 →
       editFile content oldString newString false
         = Except.ok ⟨⟨replaceFirstL content.data oldString.data newString.data⟩, 1⟩) ∧
    (0 < countOcc content.data oldString.data →
       editFile content oldString newString true
         = Except.ok ⟨⟨List.intercalate newString.data (splitOnL content.data oldString.data)⟩,
                      countOcc content.data oldString.data⟩) := by
  have hp : oldString.data ≠ [] := fun h => hnz (by
    have := congrArg String.mk h
    simpa using this)
  refine ⟨?_, ?_, ?_, ?_⟩
  · intro h0
    exact editFile_eq_notFound content oldString newString replaceAll hne
      ((countOcc_eq_zero_iff_not_contains content.data oldString.data hp).mp h0)
  · intro hmany
    exact editFile_eq_ambiguous content oldString newString hne hnz hmany
  · intro hone
    exact editFile_eq_single content oldString newString hne hnz hone
  · intro hpos
    exact editFile_eq_replaceAll content oldString newString hne hnz hpos

/-- C2 witness: the specification's own example, content aaa-newline-aaa:
without replaceAll the edit is rejected as ambiguous with count two, with
replaceAll both occurrences are replaced and two replacements reported. -/
theorem editFile_contract_witness :
    editFile "aaa\naaa\n" "aaa" "bbb" false = Except.error (EditError.ambiguous 2) ∧
    editFile "aaa\naaa\n" "aaa" "bbb" true = Except.ok ⟨"bbb\nbbb\n", 2⟩ := by
  have h := editFile_contract "aaa\naaa\n" "aaa" "bbb" false (by decide) (by decide)
  have e1 : countOcc "aaa\naaa\n".data "aaa".data = 2 := rfl
  refine ⟨?_, ?_⟩
  · have h2 := h.2.1 (by decide)
    rw [e1] at h2
    exact h2
  · have h4 := h.2.2.2 (by decide)
    rw [e1] at h4
    exact h4

/- ── C9 ── -/

/-- C9 counterexample: content a holds exactly one occurrence of the old
string a; replacing it with aa succeeds, but re-invoking editFile with
the same old string on the result is rejected as ambiguous with count
two — the replacement reintroduced the old text — not with the not-found
failure the claim promises for every new string. -/
theorem editFile_reinvoke_cex :
    countOcc "a".data "a".data = 1 ∧
    editFile "a" "a" "aa" false = Except.ok ⟨"aa", 1⟩ ∧
    editFile "aa" "a" "aa" false = Except.error (EditError.ambiguous 2) := by
  refine ⟨rfl, rfl, rfl⟩

/-- C9 (amended): after a successful single-occurrence replacement,
re-invoking editFile with the same old string fails not-found provided
the old string no longer occurs in the updated content; when the
replacement reintroduces the old text this proviso fails and so does the
claimed behaviour. -/
theorem editFile_then_notFound (content oldString newString : String)
    (hne : oldString ≠ newString) (hnz : oldString ≠ "")
    (hone : countOcc content.data oldString.data = 1) :
    editFile content oldString newString false
      = Except.ok ⟨⟨replaceFirstL content.data oldString.data newString.data⟩, 1⟩ ∧
    (containsSub oldString.data (replaceFirstL content.data oldString.data newString.data) = false →
      editFile ⟨replaceFirstL content.data oldString.data newString.data⟩ oldString newString false
        = Except.error EditError.notFound) := by
  refine ⟨editFile_eq_single content oldString newString hne hnz hone, ?_⟩
  intro habs
  exact editFile_eq_notFound _ oldString newString false hne habs

/-- C9 witness: replacing the single occurrence of ell in hello by xyz
gives hxyzo, in which ell no longer occurs, so the repeated edit fails
with the not-found error. -/
theorem editFile_then_notFound_witness :
    editFile ⟨replaceFirstL "hello".data "ell".data "xyz".data⟩ "ell" "xyz" false
      = Except.error EditError.notFound := by
  exact (editFile_then_notFound "hello" "ell" "xyz" (by decide) (by decide) rfl).2 (by decide)

/- ── Helper lemmas for the grep loop ── -/

theorem grepFilesAux_break (matchLine : String → Bool) (files : List FsFile) (cnt : Nat)
    (h : MAX_GREP_MATCHES ≤ cnt) : grepFilesAux matchLine files cnt = ([], 0) := by
  cases files with
  | nil => rfl
  | cons f rest => simp [grepFilesAux, h]

theorem grepFilesAux_filter_small (matchLine : String → Bool) :
    ∀ (files : List FsFile) (cnt : Nat),
      grepFilesAux matchLine files cnt
        = grepFilesAux matchLine (files.filter (fun g => decide (g.size ≤ MAX_FILE_BYTES))) cnt := by
  intro files
  induction files with
  | nil => intro cnt; rfl
  | cons f rest ih =>
    intro cnt
    by_cases hbreak : MAX_GREP_MATCHES ≤ cnt
    · rw [grepFilesAux_break _ _ _ hbreak, grepFilesAux_break _ _ _ hbreak]
    · by_cases hbig : MAX_FILE_BYTES < f.size
      · have hf : decide (f.size ≤ MAX_FILE_BYTES) = false := by
          simp only [decide_eq_false_iff_not]; omega
        simp only [List.filter_cons, hf, if_false, Bool.false_eq_true]
        rw [show grepFilesAux matchLine (f :: rest) cnt = grepFilesAux matchLine rest cnt from by
          simp [grepFilesAux, hbreak, hbig]]
        exact ih cnt
      · have hf : decide (f.size ≤ MAX_FILE_BYTES) = true := by
          simp only [decide_eq_true_eq]; omega
        simp only [List.filter_cons, hf, if_true]
        by_cases hbin : looksBinary f.content
        · simp only [grepFilesAux, if_neg hbreak, if_neg hbig, if_pos hbin]
          exact ih cnt
        · simp only [grepFilesAux, if_neg hbreak, if_neg hbig, if_neg hbin]
          rw [ih]

/- ── C10 ── -/

/-- C10: grep silently skips every file above the byte ceiling — the
result over any walked file list is exactly the result over the list
with the oversized files removed — and a single oversized file whose
lines match the pattern yields the empty result with file count zero and
no truncation flag. -/
theorem grepFiles_skips_oversized (files : List FsFile) (matchLine : String → Bool)
    (f : FsFile) (hbig : MAX_FILE_BYTES < f.size)
    (hmatch : ∃ l ∈ fileLines f.content, matchLine l = true) :
    grepFiles files matchLine
      = grepFiles (files.filter (fun g => decide (g.size ≤ MAX_FILE_BYTES))) matchLine ∧
    grepFiles [f] matchLine = ⟨[], 0, false⟩ := by
  constructor
  · unfold grepFiles
    rw [← grepFilesAux_filter_small]
  · unfold grepFiles
    simp [grepFilesAux, MAX_GREP_MATCHES, hbig]

/-- C10 witness: a single 300001-byte file whose only line matches the
pattern contributes no matches, is not counted, and the result is not
flagged truncated. -/
theorem grepFiles_skips_oversized_witness :
    grepFiles [⟨"big.txt", 300001, "hello"⟩] (fun l => l == "hello") = ⟨[], 0, false⟩ := by
  exact (grepFiles_skips_oversized [⟨"big.txt", 300001, "hello"⟩] (fun l => l == "hello")
    ⟨"big.txt", 300001, "hello"⟩ (by decide) ⟨"hello", by decide, by decide⟩).2

/- ── C3 ── -/

/-- C3: the dispatcher boundary never lets an exception escape: for every
abstract tool behaviour, abort flag, tool name and argument map, the
outcome is either a normal textual result — internal failures and
unknown tool names included — or the cancellation error re-raised
unmodified; an observed abort yields exactly the cancellation error, and
an unknown tool name yields a normal textual result. -/
theorem executeTool_boundary {A : Type} (ops : ToolOps A) (aborted : Bool) (name : String) (args : A) :
    ((∃ s, executeTool ops aborted name args = Except.ok s) ∨
      executeTool ops aborted name args = Except.error "Run cancelled") ∧
    executeTool ops true name args = Except.error "Run cancelled" ∧
    executeTool ops false "definitely_not_a_tool" args
      = Except.ok ("Unknown tool: " ++ "definitely_not_a_tool") := by
  refine ⟨?_, ?_, ?_⟩
  · unfold executeTool
    cases hd : dispatchTool ops aborted name args with
    | ok r => exact Or.inl ⟨r, rfl⟩
    | error msg =>
      by_cases hmsg : msg = "Run cancelled"
      · subst hmsg
        exact Or.inr (by simp)
      · exact Or.inl ⟨"Tool error: " ++ msg, by simp [hmsg]⟩
  · unfold executeTool dispatchTool
    simp
  · rfl

/- ── C8 ── -/

/-- C8 counterexample: a step stream carrying a message-start usage
report (ten input, five output tokens) followed by a delta usage update
(seven output tokens) ends the step with output counter seven — the
delta value overwrote the start-of-message value — not the defensive sum
twelve the claim requires. -/
theorem anth_usage_not_summed_cex :
    anthStepUsage [AnthStreamEvent.messageStart 10 5, AnthStreamEvent.messageDelta 7] = ⟨10, 7⟩ ∧
    (anthStepUsage [AnthStreamEvent.messageStart 10 5,
        AnthStreamEvent.messageDelta 7]).outputTokens ≠ 5 + 7 := by
  exact ⟨rfl, by decide⟩

/-- C8 (amended): when both a start-of-message usage report and a
delta-style update occur within one step, the input counter keeps the
start-of-message value and the output counter takes the nonzero delta
value, overwriting the earlier report rather than summing with it; the
OpenAI loop likewise lets the last usage-bearing chunk overwrite both
counters. -/
theorem usage_overwrite_semantics (i o o2 : Nat) (ho : o2 ≠ 0) :
    anthStepUsage [AnthStreamEvent.messageStart i o, AnthStreamEvent.messageDelta o2] = ⟨i, o2⟩ ∧
    ∀ p c p2 c2 : Nat, openAIStepUsage [some (p, c), some (p2, c2)] = ⟨p2, c2⟩ := by
  constructor
  · simp [anthStepUsage, applyAnthUsage, ho]
  · intro p c p2 c2
    rfl

/-- C8 witness: with a start report of ten in and five out followed by a
delta report of seven out, the step ends at ten in and seven out. -/
theorem usage_overwrite_semantics_witness :
    anthStepUsage [AnthStreamEvent.messageStart 10 5, AnthStreamEvent.messageDelta 7]
      = ⟨10, 7⟩ ∧
    openAIStepUsage [some (3, 4), some (5, 6)] = ⟨5, 6⟩ := by
  exact ⟨(usage_overwrite_semantics 10 5 7 (by decide)).1,
    (usage_overwrite_semantics 10 5 7 (by decide)).2 3 4 5 6⟩

/- ── C7 ── -/

/-- C7: an RPC timeout removes exactly its own pending entry and fails
only that request with the timeout outcome: the connected flag and the
subprocess are untouched, every other in-flight id stays pending, and a
subsequent response for any other pending id still resolves it. -/
theorem rpc_timeout_independent (s : McpClientState) (rid : String) (hmem : rid ∈ s.pendingIds) :
    (onRequestTimeout s rid).2 = [(rid, RpcOutcome.timedOut)] ∧
    (onRequestTimeout s rid).1.pendingIds = s.pendingIds.erase rid ∧
    (onRequestTimeout s rid).1.connected = s.connected ∧
    (onRequestTimeout s rid).1.processAlive = s.processAlive ∧
    (∀ j, j ≠ rid → (j ∈ (onRequestTimeout s rid).1.pendingIds ↔ j ∈ s.pendingIds)) ∧
    (∀ j, j ≠ rid → j ∈ s.pendingIds →
      (onResponseLine (onRequestTimeout s rid).1 j false).2 = [(j, RpcOutcome.resolved)]) := by
  refine ⟨by simp [onRequestTimeout, hmem], by simp [onRequestTimeout, hmem],
    by simp [onRequestTimeout, hmem], by simp [onRequestTimeout, hmem], ?_, ?_⟩
  · intro j hj
    have hpend : (onRequestTimeout s rid).1.pendingIds = s.pendingIds.erase rid := by
      simp [onRequestTimeout, hmem]
    rw [hpend]
    exact List.mem_erase_of_ne hj
  · intro j hj hjmem
    have hj2 : j ∈ s.pendingIds.erase rid := (List.mem_erase_of_ne hj).mpr hjmem
    simp [onRequestTimeout, onResponseLine, hmem, hj2]

/-- C7 witness: with requests r1 and r2 pending, a timeout of r1 leaves
r2 pending and a later response line for r2 resolves it. -/
theorem rpc_timeout_independent_witness :
    (onResponseLine (onRequestTimeout ⟨["r1", "r2"], true, true⟩ "r1").1 "r2" false).2
      = [("r2", RpcOutcome.resolved)] := by
  exact (rpc_timeout_independent ⟨["r1", "r2"], true, true⟩ "r1"
    (by decide)).2.2.2.2.2 "r2" (by decide) (by decide)

/- ── C6 ── -/

/-- C6: the catalogue offered to an explore sub-agent is exactly the
four read-only tools list_files, read_file, glob and grep (for either
provider's tool list), and in any run whose provider only calls tools
from that catalogue no write, edit or command-execution tool is ever
executed. -/
theorem explore_catalogue_readonly :
    subAgentCatalogue (anthropicToolNames false) true
      = ["list_files", "read_file", "glob", "grep"] ∧
    subAgentCatalogue (openAIToolNames false) true
      = ["list_files", "read_file", "glob", "grep"] ∧
    ∀ steps : List (List String),
      (∀ s ∈ steps, ∀ n ∈ s, n ∈ subAgentCatalogue (anthropicToolNames false) true) →
      ∀ n ∈ executedToolNames steps,
        n ≠ "write_file" ∧ n ≠ "edit_file" ∧ n ≠ "run_command" := by
  refine ⟨by decide, by decide, ?_⟩
  intro steps hsteps n hn
  rcases List.mem_flatten.mp hn with ⟨s, hs, hns⟩
  have hmem := hsteps s hs n hns
  have hlist : n ∈ (["list_files", "read_file", "glob", "grep"] : List String) := by
    rw [show subAgentCatalogue (anthropicToolNames false) true
        = ["list_files", "read_file", "glob", "grep"] from by decide] at hmem
    exact hmem
  fin_cases hlist <;> exact ⟨by decide, by decide, by decide⟩

/-- C6 witness: a run consisting of one step that calls read_file stays
within the explore catalogue, and that executed tool is none of the
write, edit or command tools. -/
theorem explore_catalogue_readonly_witness :
    ("read_file" : String) ≠ "write_file" ∧ ("read_file" : String) ≠ "edit_file" ∧
    ("read_file" : String) ≠ "run_command" := by
  exact explore_catalogue_readonly.2.2 [["read_file"]] (by decide) "read_file" (by decide)

/- ── Helper lemmas about chunking ── -/

theorem chunksAux_flatten {α : Type} (k : Nat) (hk : 0 < k) :
    ∀ (fuel : Nat) (l : List α), l.length ≤ fuel → (chunksAux k fuel l).flatten = l := by
  intro fuel
  induction fuel with
  | zero =>
    intro l hl
    have : l = [] := List.eq_nil_of_length_eq_zero (Nat.le_zero.mp hl)
    subst this
    rfl
  | succ n ih =>
    intro l hl
    cases l with
    | nil => rfl
    | cons a t =>
      have hrec : ((a :: t).drop k).length ≤ n := by
        simp only [List.length_drop, List.length_cons]
        simp only [List.length_cons] at hl
        omega
      simp only [chunksAux, List.flatten_cons, ih _ hrec, List.take_append_drop]

theorem chunksOf_flatten {α : Type} (k : Nat) (hk : 0 < k) (l : List α) :
    (chunksOf k l).flatten = l :=
  chunksAux_flatten k hk l.length l le_rfl

theorem chunksAux_mem_length {α : Type} (k : Nat) (hk : 0 < k) :
    ∀ (fuel : Nat) (l : List α), l.length ≤ fuel →
      ∀ b ∈ chunksAux k fuel l, b.length ≤ k := by
  intro fuel
  induction fuel with
  | zero =>
    intro l hl b hb
    have : l = [] := List.eq_nil_of_length_eq_zero (Nat.le_zero.mp hl)
    subst this
    simp [chunksAux] at hb
  | succ n ih =>
    intro l hl b hb
    cases l with
    | nil => simp [chunksAux] at hb
    | cons a t =>
      simp only [chunksAux, List.mem_cons] at hb
      rcases hb with rfl | hb
      · exact List.length_take_le k (a :: t)
      · refine ih _ ?_ b hb
        simp only [List.length_drop, List.length_cons]
        simp only [List.length_cons] at hl
        omega

theorem chunksOf_mem_length {α : Type} (k : Nat) (hk : 0 < k) (l : List α) :
    ∀ b ∈ chunksOf k l, b.length ≤ k :=
  chunksAux_mem_length k hk l.length l le_rfl

/- ── Helper lemmas for the result-array write/read phases ── -/

theorem writeFold_length {β : Type} (v : Nat × ToolCallRec → β) :
    ∀ (items : List (Nat × ToolCallRec)) (acc : List (Option β)),
      (items.foldl (fun a ic => a.set ic.1 (some (v ic))) acc).length = acc.length := by
  intro items
  induction items with
  | nil => intro acc; rfl
  | cons hd tl ih =>
    intro acc
    simp only [List.foldl_cons, ih, List.length_set]

theorem writeFold_getElem?_of_not_mem {β : Type} (v : Nat × ToolCallRec → β) :
    ∀ (items : List (Nat × ToolCallRec)) (acc : List (Option β)) (i : Nat),
      i ∉ items.map Prod.fst →
      (items.foldl (fun a ic => a.set ic.1 (some (v ic))) acc)[i]? = acc[i]? := by
  intro items
  induction items with
  | nil => intro acc i _; rfl
  | cons hd tl ih =>
    intro acc i hni
    simp only [List.map_cons, List.mem_cons, not_or] at hni
    simp only [List.foldl_cons]
    rw [ih _ i (by exact fun h => hni.2 h)]
    exact List.getElem?_set_ne (fun h => hni.1 h.symm)

theorem writeFold_getElem?_of_mem {β : Type} (v : Nat × ToolCallRec → β) :
    ∀ (items : List (Nat × ToolCallRec)) (acc : List (Option β)) (i : Nat) (c : ToolCallRec),
      (i, c) ∈ items →
      (∀ p ∈ items, p.1 = i → p.2 = c) →
      i < acc.length →
      (items.foldl (fun a ic => a.set ic.1 (some (v ic))) acc)[i]?
        = some (some (v (i, c))) := by
  intro items
  induction items with
  | nil => intro acc i c hmem; exact absurd hmem (List.not_mem_nil _)
  | cons hd tl ih =>
    intro acc i c hmem hagree hlen
    obtain ⟨j, d⟩ := hd
    simp only [List.foldl_cons]
    by_cases hji : i = j
    · subst hji
      have hd : d = c := hagree (i, d) (List.mem_cons_self _ _) rfl
      subst hd
      by_cases htl : i ∈ tl.map Prod.fst
      · rcases List.mem_map.mp htl with ⟨p, hp, hp1⟩
        have hp2 : p.2 = d := hagree p (List.mem_cons_of_mem _ hp) hp1
        have hpeq : p = (i, d) := by
          cases p
          simp only at hp1 hp2
          simp [hp1, hp2]
        rw [hpeq] at hp
        exact ih _ i d hp (fun p hp hp1 => hagree p (List.mem_cons_of_mem _ hp) hp1)
          (by simpa using hlen)
      · rw [writeFold_getElem?_of_not_mem v tl _ i htl]
        exact List.getElem?_set_self (by simpa using hlen)
    · have hmem2 : (i, c) ∈ tl := by
        rcases List.mem_cons.mp hmem with heq | h
        · exact absurd (congrArg Prod.fst heq) hji
        · exact h
      exact ih _ i c hmem2 (fun p hp hp1 => hagree p (List.mem_cons_of_mem _ hp) hp1)
        (by simpa using hlen)

theorem assembleResults_eq (calls : List ToolCallRec) (exec : ToolCallRec → String)
    (order : List (Nat × ToolCallRec)) (horder : List.Perm order calls.enum) :
    assembleResults calls exec order = calls.map (fun c => (c.id, exec c)) := by
  apply List.ext_getElem
  · simp [assembleResults]
  intro i h1 h2
  simp only [assembleResults, List.getElem_map, List.getElem_range, List.length_map] at h1 h2 ⊢
  have hmem : (i, calls[i]) ∈ order := by
    rw [horder.mem_iff, List.mk_mem_enum_iff_getElem?]
    exact List.getElem?_eq_getElem h2
  have hagree : ∀ p ∈ order, p.1 = i → p.2 = calls[i] := by
    intro p hp hp1
    have := List.mk_mem_enum_iff_getElem?.mp (horder.mem_iff.mp hp)
    rw [hp1] at this
    rw [List.getElem?_eq_getElem h2] at this
    exact (Option.some_inj.mp this).symm
  have hw := writeFold_getElem?_of_mem (fun ic => (ic.2.id, exec ic.2)) order
    (List.replicate calls.length none) i calls[i] hmem hagree (by simpa using h2)
  simp only [writeResults, hw]
  rfl

/- ── Helper lemmas for the id-keyed result map ── -/

theorem foldl_cons_eq_reverse_map {β γ : Type} (f : β → γ) :
    ∀ (l : List β) (acc : List γ), l.foldl (fun a c => f c :: a) acc = (l.map f).reverse ++ acc := by
  intro l
  induction l with
  | nil => intro acc; rfl
  | cons hd tl ih =>
    intro acc
    simp only [List.foldl_cons, ih, List.map_cons, List.reverse_cons, List.append_assoc,
      List.singleton_append]

theorem lookup_eq_of_agree (key val : String) :
    ∀ m : List (String × String),
      (∃ p ∈ m, p.1 = key) →
      (∀ p ∈ m, p.1 = key → p.2 = val) →
      m.lookup key = some val := by
  intro m
  induction m with
  | nil => intro hex _; simp at hex
  | cons hd tl ih =>
    intro hex hagree
    obtain ⟨k, v⟩ := hd
    by_cases hk : k = key
    · subst hk
      have : v = val := hagree (k, v) (List.mem_cons_self _ _) rfl
      subst this
      simp [List.lookup]
    · have hbeq : (key == k) = false := by
        simp [Ne.symm hk]
      simp only [List.lookup, hbeq]
      refine ih ?_ (fun p hp hp1 => hagree p (List.mem_cons_of_mem _ hp) hp1)
      rcases hex with ⟨p, hp, hp1⟩
      rcases List.mem_cons.mp hp with heq | h
      · rw [heq] at hp1
        exact absurd hp1 hk
      · exact ⟨p, h, hp1⟩

theorem assembleResultsById_eq (calls : List ToolCallRec) (exec : ToolCallRec → String)
    (order : List ToolCallRec) (horder : List.Perm order calls)
    (hids : (calls.map ToolCallRec.id).Nodup) :
    assembleResultsById calls exec order = calls.map (fun c => (c.id, exec c)) := by
  unfold assembleResultsById
  apply List.map_congr_left
  intro c hc
  have hlk : (writeResultsById exec order).lookup c.id = some (exec c) := by
    apply lookup_eq_of_agree
    · refine ⟨(c.id, exec c), ?_, rfl⟩
      rw [writeResultsById, foldl_cons_eq_reverse_map]
      simp only [List.append_nil, List.mem_reverse, List.mem_map]
      exact ⟨c, horder.mem_iff.mpr hc, rfl⟩
    · intro p hp hpk
      rw [writeResultsById, foldl_cons_eq_reverse_map] at hp
      simp only [List.append_nil, List.mem_reverse, List.mem_map] at hp
      obtain ⟨d, hd, hdp⟩ := hp
      have hdc : d ∈ calls := horder.mem_iff.mp hd
      have hid : d.id = c.id := by
        rw [← hdp] at hpk
        exact hpk
      have : d = c := List.inj_on_of_nodup_map hids hdc hc hid
      subst this
      rw [← hdp]
  rw [hlk]
  rfl

theorem partitionOrder_perm (k : Nat) (hk : 0 < k) (calls : List ToolCallRec) :
    List.Perm (partitionOrder k calls) calls.enum := by
  unfold partitionOrder
  rw [chunksOf_flatten k hk]
  have hcong : calls.enum.filter (fun ic => ic.2.name == "spawn_task")
      = calls.enum.filter (fun ic => !(!(ic.2.name == "spawn_task"))) := by
    apply List.filter_congr
    intro a _
    simp
  rw [hcong]
  exact List.filter_append_perm (fun ic => !(ic.2.name == "spawn_task")) calls.enum

/- ── C4 ── -/

/-- C4: within one step the tool results are assembled in exactly the
order the calls were issued, one result per call, for any completion
order — any permutation of the issued calls, which covers every
sequential-versus-parallel partition and every batch interleaving — in
both the index-keyed Anthropic mechanism and the id-keyed OpenAI
mechanism (the latter under the invariant that call ids are distinct);
and in particular for the schedule the source runs: non-spawn calls in
issue order, then the spawn batches. -/
theorem step_results_in_issue_order (calls : List ToolCallRec) (exec : ToolCallRec → String)
    (order : List (Nat × ToolCallRec)) (horder : List.Perm order calls.enum)
    (orderById : List ToolCallRec) (hById : List.Perm orderById calls)
    (hids : (calls.map ToolCallRec.id).Nodup) (k : Nat) (hk : 0 < k) :
    assembleResults calls exec order = calls.map (fun c => (c.id, exec c)) ∧
    assembleResultsById calls exec orderById = calls.map (fun c => (c.id, exec c)) ∧
    assembleResults calls exec (partitionOrder k calls)
      = calls.map (fun c => (c.id, exec c)) := by
  exact ⟨assembleResults_eq calls exec order horder,
    assembleResultsById_eq calls exec orderById hById hids,
    assembleResults_eq calls exec (partitionOrder k calls) (partitionOrder_perm k hk calls)⟩

/-- C4 witness: two calls, a grep and a spawn_task, completing in
reverse order still yield the results in issue order with one result per
call id. -/
theorem step_results_in_issue_order_witness :
    assembleResults [⟨"a", "grep"⟩, ⟨"b", "spawn_task"⟩] (fun c => c.name)
        [(1, ⟨"b", "spawn_task"⟩), (0, ⟨"a", "grep"⟩)]
      = [("a", "grep"), ("b", "spawn_task")] := by
  have h := step_results_in_issue_order [⟨"a", "grep"⟩, ⟨"b", "spawn_task"⟩] (fun c => c.name)
    [(1, ⟨"b", "spawn_task"⟩), (0, ⟨"a", "grep"⟩)] (by decide)
    [⟨"b", "spawn_task"⟩, ⟨"a", "grep"⟩] (by decide) (by decide) 2 (by decide)
  exact h.1.trans (by decide)

/- ── Helper lemmas for scheduler traces ── -/

theorem prefix_append_cases {α : Type} :
    ∀ (A B p : List α), p <+: A ++ B → p <+: A ∨ ∃ q, p = A ++ q ∧ q <+: B := by
  intro A
  induction A with
  | nil => intro B p h; exact Or.inr ⟨p, rfl, h⟩
  | cons a A ih =>
    intro B p h
    cases p with
    | nil => exact Or.inl List.nil_prefix
    | cons x p =>
      rw [List.cons_append] at h
      rcases List.cons_prefix_cons.mp h with ⟨rfl, h2⟩
      rcases ih B p h2 with h3 | ⟨q, rfl, hq⟩
      · exact Or.inl (List.cons_prefix_cons.mpr ⟨rfl, h3⟩)
      · exact Or.inr ⟨q, rfl, hq⟩

theorem flatten_prefix_bound (k : Nat) :
    ∀ blocks : List (List SchedEvent),
      (∀ t ∈ blocks, t.countP isTaskStart ≤ k) →
      (∀ t ∈ blocks, t.countP isTaskStart = t.countP isTaskEnd) →
      ∀ q, q <+: blocks.flatten → q.countP isTaskStart ≤ q.countP isTaskEnd + k := by
  intro blocks
  induction blocks with
  | nil =>
    intro _ _ q hq
    have : q = [] := List.prefix_nil.mp (by simpa using hq)
    subst this
    simp
  | cons t rest ih =>
    intro hle hbal q hq
    rw [List.flatten_cons] at hq
    rcases prefix_append_cases t rest.flatten q hq with h | ⟨r, rfl, hr⟩
    · have h1 : q.countP isTaskStart ≤ t.countP isTaskStart := h.countP_le _
      have h2 : t.countP isTaskStart ≤ k := hle t (List.mem_cons_self _ _)
      omega
    · have h1 := ih (fun u hu => hle u (List.mem_cons_of_mem _ hu))
        (fun u hu => hbal u (List.mem_cons_of_mem _ hu)) r hr
      have h2 := hbal t (List.mem_cons_self _ _)
      simp only [List.countP_append]
      omega

theorem pendingMarks_countP_start (tasks : List Nat) :
    (tasks.map SchedEvent.pendingMark).countP isTaskStart = 0 := by
  induction tasks with
  | nil => rfl
  | cons a t ih => simpa [List.countP_cons, isTaskStart] using ih

theorem pendingMarks_countP_end (tasks : List Nat) :
    (tasks.map SchedEvent.pendingMark).countP isTaskEnd = 0 := by
  induction tasks with
  | nil => rfl
  | cons a t ih => simpa [List.countP_cons, isTaskEnd] using ih

/- ── C5 ── -/

/-- C5: the spawn_task scheduler emits one pending marker per delegated
request before any task event, runs the requests in consecutive batches
of at most k tasks so that in every prefix of the trace the number of
started-but-unsettled tasks never exceeds k, and at every batch boundary
every task of the earlier batches has already settled — batch N+1 never
starts before batch N has fully settled; this holds for every
well-formed interleaving of the batch executions. -/
theorem scheduler_batching (k : Nat) (tasks : List Nat) (f : List Nat → List SchedEvent)
    (hk : 0 < k) (hwf : ∀ b ∈ chunksOf k tasks, WFBatchTrace b (f b)) :
    ((schedTrace k tasks f).take tasks.length = tasks.map SchedEvent.pendingMark ∧
      ∀ e ∈ (schedTrace k tasks f).drop tasks.length, isPendingMark e = false) ∧
    (∀ pre, pre <+: schedTrace k tasks f →
      pre.countP isTaskStart ≤ pre.countP isTaskEnd + k) ∧
    (∀ j : Nat,
      (tasks.map SchedEvent.pendingMark
          ++ (((chunksOf k tasks).map f).take j).flatten).countP isTaskStart
        = (tasks.map SchedEvent.pendingMark
          ++ (((chunksOf k tasks).map f).take j).flatten).countP isTaskEnd) := by
  have hblocks_le : ∀ t ∈ (chunksOf k tasks).map f, t.countP isTaskStart ≤ k := by
    intro t ht
    rcases List.mem_map.mp ht with ⟨b, hb, rfl⟩
    have h1 := (hwf b hb).1
    have h2 := chunksOf_mem_length k hk tasks b hb
    omega
  have hblocks_bal : ∀ t ∈ (chunksOf k tasks).map f,
      t.countP isTaskStart = t.countP isTaskEnd := by
    intro t ht
    rcases List.mem_map.mp ht with ⟨b, hb, rfl⟩
    exact ((hwf b hb).1).trans ((hwf b hb).2.1).symm
  refine ⟨⟨?_, ?_⟩, ?_, ?_⟩
  · unfold schedTrace
    exact List.take_left' (List.length_map _ _)
  · unfold schedTrace
    rw [List.drop_left' (List.length_map _ _)]
    intro e he
    rcases List.mem_flatten.mp he with ⟨t, ht, het⟩
    rcases List.mem_map.mp ht with ⟨b, hb, rfl⟩
    exact (hwf b hb).2.2.1 e het
  · intro pre hpre
    unfold schedTrace at hpre
    rcases prefix_append_cases _ _ pre hpre with h | ⟨q, rfl, hq⟩
    · have h1 : pre.countP isTaskStart ≤ (tasks.map SchedEvent.pendingMark).countP isTaskStart :=
        h.countP_le _
      rw [pendingMarks_countP_start] at h1
      omega
    · have h1 := flatten_prefix_bound k ((chunksOf k tasks).map f) hblocks_le hblocks_bal q hq
      simp only [List.countP_append, pendingMarks_countP_start, pendingMarks_countP_end]
      omega
  · intro j
    simp only [List.countP_append, pendingMarks_countP_start, pendingMarks_countP_end,
      List.countP_flatten]
    have : List.map (List.countP isTaskStart) (((chunksOf k tasks).map f).take j)
        = List.map (List.countP isTaskEnd) (((chunksOf k tasks).map f).take j) := by
      apply List.map_congr_left
      intro t ht
      exact hblocks_bal t (List.mem_of_mem_take ht)
    rw [this]

/-- C5 witness: with concurrency limit two and five delegated tasks run
start-to-end inside each batch, any prefix of the trace — here the first
eight events — has at most two started-but-unsettled tasks. -/
theorem scheduler_batching_witness :
    ((schedTrace 2 [0, 1, 2, 3, 4]
        (fun b => b.map SchedEvent.taskStart ++ b.map SchedEvent.taskEnd)).take 8).countP
        isTaskStart
      ≤ ((schedTrace 2 [0, 1, 2, 3, 4]
        (fun b => b.map SchedEvent.taskStart ++ b.map SchedEvent.taskEnd)).take 8).countP
        isTaskEnd + 2 := by
  exact (scheduler_batching 2 [0, 1, 2, 3, 4]
    (fun b => b.map SchedEvent.taskStart ++ b.map SchedEvent.taskEnd) (by decide)
    (by decide)).2.1 _ (List.take_prefix 8 _)

end SnCode
